import Mathlib

/-!
# Verification of the Mandelbrot renderer

A shallow embedding of `src/main.rs` of the `rust-mandelbrot` repository,
together with proofs of the specified properties.

Modelling conventions:
* `f64` values are modelled as exact rationals (`ℚ`); `Complex<f64>` becomes
  the structure `Cplx` below, with the arithmetic of the `num` crate spelled
  out (`mul`, `add`, `norm_sqr`).
* `usize`/`u32` values are modelled as `ℕ`; the `as u8` casts are modelled as
  `% 256` (they never truncate on reachable values, which is proved below).
* The mutable pixel buffer (`&mut [u8]`) is a `List ℕ`; an indexed store
  `pixels[i] = v` is `List.set`.
* A Rust panic (a failed `assert!`, or `chunks_mut` with chunk size zero) is
  modelled by returning `none`; `crossbeam::scope` propagates worker panics,
  so the scheduler is `none` as soon as one worker fails.
* `slice::chunks_mut` is modelled by `chunksOf`; the fork/join of the worker
  loop is `spawnAll`, which collects the rendered bands in order (the Rust
  bands are disjoint sub-slices of one buffer, so the final buffer content is
  exactly the concatenation of the rendered bands).
-/

namespace Mandelbrot

/-- Complex numbers with rational components, modelling the `Complex<f64>`
values of the program with exact real arithmetic. -/
@[ext]
structure Cplx where
  re : ℚ
  im : ℚ
deriving DecidableEq

/-- Complex addition as in the `num` crate. -/
def Cplx.add (a b : Cplx) : Cplx := ⟨a.re + b.re, a.im + b.im⟩

/-- Complex multiplication as in the `num` crate. -/
def Cplx.mul (a b : Cplx) : Cplx := ⟨a.re * b.re - a.im * b.im, a.re * b.im + a.im * b.re⟩

/-- `Complex::norm_sqr` of the `num` crate: `re*re + im*im`. -/
def Cplx.norm_sqr (a : Cplx) : ℚ := a.re * a.re + a.im * a.im

/-- The loop of `escape_time`: at loop index `i` the code first updates
`z` to `z*z + c` and then tests `z.norm_sqr() > 4.0`, returning `Some(i)`
on success.  `fuel` is the number of loop iterations still to run. -/
def escapeTimeGo (c : Cplx) (i : ℕ) (z : Cplx) : ℕ → Option ℕ
  | 0 => none
  | fuel + 1 =>
    let z2 := (z.mul z).add c
    if 4 < z2.norm_sqr then some i else escapeTimeGo c (i + 1) z2 fuel

/-- `escape_time` from `src/main.rs`: run the loop for `limit` iterations
starting from `z = 0`. -/
def escape_time (c : Cplx) (limit : ℕ) : Option ℕ :=
  escapeTimeGo c 0 ⟨0, 0⟩ limit

/-- The Mandelbrot orbit of the specification: `z₀ = 0`,
`z_{n+1} = z_n² + c`.  Used to state properties of `escape_time`. -/
def orbitZ (c : Cplx) : ℕ → Cplx
  | 0 => ⟨0, 0⟩
  | n + 1 => ((orbitZ c n).mul (orbitZ c n)).add c

/-- `pixel_to_point` from `src/main.rs`: linear interpolation taking the
pixel `(column, row)` (given as `target_pixel`) to a point of the plane
window `[upper_left, lower_right]`. -/
def pixel_to_point (pixel_width pixel_height : ℕ) (target_pixel : ℕ × ℕ)
    (upper_left lower_right : Cplx) : Cplx :=
  let width : ℚ := lower_right.re - upper_left.re
  let height : ℚ := upper_left.im - lower_right.im
  ⟨upper_left.re + (target_pixel.1 : ℚ) * width / (pixel_width : ℚ),
   upper_left.im - (target_pixel.2 : ℚ) * height / (pixel_height : ℚ)⟩

/-- One iteration of the inner loop body of `render`: compute the plane
point of pixel `(column, row)`, evaluate `escape_time` with limit 255 and
store the three colour bytes at offsets
`row*pixel_width*3 + column*3 + {0,1,2}`.  The `as u8` casts are `% 256`. -/
def renderWritePixel (pixel_width pixel_height : ℕ) (upper_left lower_right : Cplx)
    (row column : ℕ) (pixels : List ℕ) : List ℕ :=
  let point := pixel_to_point pixel_width pixel_height (column, row) upper_left lower_right
  match escape_time point 255 with
  | none =>
    ((pixels.set (row * pixel_width * 3 + column * 3) 0).set
        (row * pixel_width * 3 + column * 3 + 1) 0).set
      (row * pixel_width * 3 + column * 3 + 2) 0
  | some count =>
    ((pixels.set (row * pixel_width * 3 + column * 3) (255 - count % 256)).set
        (row * pixel_width * 3 + column * 3 + 1) ((column * 255 / pixel_width) % 256)).set
      (row * pixel_width * 3 + column * 3 + 2) ((255 - column * 255 / pixel_width) % 256)

/-- The nested `for row { for column { … } }` loops of `render`. -/
def renderCore (pixel_width pixel_height : ℕ) (upper_left lower_right : Cplx)
    (pixels : List ℕ) : List ℕ :=
  (List.range pixel_height).foldl
    (fun buf row =>
      (List.range pixel_width).foldl
        (fun buf2 column =>
          renderWritePixel pixel_width pixel_height upper_left lower_right row column buf2)
        buf)
    pixels

/-- `render` from `src/main.rs`.  The leading
`assert!(pixels.len() == pixel_width * pixel_height * 3)` is modelled by
returning `none` (a panic) when the length precondition fails, before any
byte is written. -/
def render (pixels : List ℕ) (pixel_width pixel_height : ℕ)
    (upper_left lower_right : Cplx) : Option (List ℕ) :=
  if pixels.length = pixel_width * pixel_height * 3 then
    some (renderCore pixel_width pixel_height upper_left lower_right pixels)
  else none

/-- `synchronous` from `src/main.rs`: render the whole buffer with a single
worker. -/
def synchronous (pixels : List ℕ) (pixel_width pixel_height : ℕ)
    (upper_left lower_right : Cplx) : Option (List ℕ) :=
  render pixels pixel_width pixel_height upper_left lower_right

/-- `slice::chunks_mut`: split a list into consecutive chunks of `n`
elements, the last chunk possibly shorter.  The `n = 0` case (a panic in
Rust) is guarded by the caller (`concurrent`). -/
def chunksOf (n : ℕ) (l : List α) : List (List α) :=
  if _h : n = 0 then []
  else
    match l with
    | [] => []
    | x :: xs => (x :: xs).take n :: chunksOf n ((x :: xs).drop n)
termination_by l.length
decreasing_by
  simp only [List.length_drop, List.length_cons]
  omega

/-- The worker-spawning loop of `concurrent`: for each enumerated band
`(i, band)` compute `top = rows_per_band * i`,
`band_height = band.len() / (pixel_width * 3)`, the band's sub-window via
`pixel_to_point` against the full grid, and render the band.  The rendered
bands are collected in order; `none` (a worker panic) aborts the whole
render, as `crossbeam::scope` propagates panics at the join. -/
def spawnAll (pixel_width pixel_height : ℕ) (upper_left lower_right : Cplx)
    (rows_per_band : ℕ) : List (ℕ × List ℕ) → Option (List (List ℕ))
  | [] => some []
  | (i, band) :: rest =>
    let top := rows_per_band * i
    let band_height := band.length / (pixel_width * 3)
    let band_upper_left :=
      pixel_to_point pixel_width pixel_height (0, top) upper_left lower_right
    let band_lower_right :=
      pixel_to_point pixel_width pixel_height (pixel_width, top + band_height)
        upper_left lower_right
    match render band pixel_width band_height band_upper_left band_lower_right,
        spawnAll pixel_width pixel_height upper_left lower_right rows_per_band rest with
    | some out, some outs => some (out :: outs)
    | _, _ => none

/-- `concurrent` from `src/main.rs`: split the buffer into bands of
`rows_per_band = pixel_height / 12 + 1` rows and render them in parallel.
The bands are disjoint sub-slices of the one buffer, so the buffer after
the join is the concatenation of the rendered bands.  A chunk size of zero
(i.e. `pixel_width = 0`) makes `chunks_mut` panic, modelled by `none`. -/
def concurrent (pixels : List ℕ) (pixel_width pixel_height : ℕ)
    (upper_left lower_right : Cplx) : Option (List ℕ) :=
  let threads := 12
  let rows_per_band := pixel_height / threads + 1
  if rows_per_band * pixel_width * 3 = 0 then none
  else
    (spawnAll pixel_width pixel_height upper_left lower_right rows_per_band
        ((chunksOf (rows_per_band * pixel_width * 3) pixels).enum)).map
      (fun outs => outs.flatten)

/-- The three colour bytes that `render` stores for pixel `(column, row)`:
black for points that do not escape, and
`(255 - count, column*255/pixel_width, 255 - column*255/pixel_width)`
for points escaping at iteration `count` (the `% 256` are the `as u8`
casts of the source). -/
def colorTriple (pixel_width pixel_height : ℕ) (upper_left lower_right : Cplx)
    (row column : ℕ) : ℕ × ℕ × ℕ :=
  match escape_time
      (pixel_to_point pixel_width pixel_height (column, row) upper_left lower_right)
      255 with
  | none => (0, 0, 0)
  | some count =>
    (255 - count % 256, (column * 255 / pixel_width) % 256,
      (255 - column * 255 / pixel_width) % 256)

/-! ## The escape-time evaluator -/

theorem orbitZ_step (c : Cplx) (n : ℕ) :
    ((orbitZ c n).mul (orbitZ c n)).add c = orbitZ c (n + 1) := rfl

theorem orbitZ_one (c : Cplx) : orbitZ c 1 = c := by
  ext <;> simp [orbitZ, Cplx.mul, Cplx.add]

theorem orbitZ_zero_point (n : ℕ) : orbitZ ⟨0, 0⟩ n = ⟨0, 0⟩ := by
  induction n with
  | zero => rfl
  | succ n ih => simp [orbitZ, ih, Cplx.mul, Cplx.add]

theorem escapeTimeGo_none_iff (c : Cplx) :
    ∀ fuel i, escapeTimeGo c i (orbitZ c i) fuel = none ↔
      ∀ j, i ≤ j → j < i + fuel → (orbitZ c (j + 1)).norm_sqr ≤ 4 := by
  intro fuel
  induction fuel with
  | zero =>
    intro i
    simp only [escapeTimeGo]
    constructor
    · intro _ j h1 h2
      omega
    · intro _
      trivial
  | succ fuel ih =>
    intro i
    simp only [escapeTimeGo, orbitZ_step]
    by_cases h4 : 4 < (orbitZ c (i + 1)).norm_sqr
    · simp only [if_pos h4]
      constructor
      · intro h
        exact absurd h (by simp)
      · intro h
        exact absurd h4 (not_lt.mpr (h i le_rfl (by omega)))
    · simp only [if_neg h4, ih (i + 1)]
      constructor
      · intro h j h1 h2
        rcases eq_or_lt_of_le h1 with rfl | h1'
        · exact not_lt.mp h4
        · exact h j h1' (by omega)
      · intro h j h1 h2
        exact h j (by omega) (by omega)

theorem escapeTimeGo_some_iff (c : Cplx) :
    ∀ fuel i k, escapeTimeGo c i (orbitZ c i) fuel = some k ↔
      i ≤ k ∧ k < i + fuel ∧ 4 < (orbitZ c (k + 1)).norm_sqr ∧
        ∀ j, i ≤ j → j < k → (orbitZ c (j + 1)).norm_sqr ≤ 4 := by
  intro fuel
  induction fuel with
  | zero =>
    intro i k
    simp only [escapeTimeGo]
    constructor
    · intro h
      exact absurd h (by simp)
    · intro ⟨h1, h2, _⟩
      omega
  | succ fuel ih =>
    intro i k
    simp only [escapeTimeGo, orbitZ_step]
    by_cases h4 : 4 < (orbitZ c (i + 1)).norm_sqr
    · simp only [if_pos h4, Option.some_inj]
      constructor
      · rintro rfl
        exact ⟨le_rfl, by omega, h4, fun j h1 h2 => by omega⟩
      · rintro ⟨h1, h2, h3, h5⟩
        by_contra hne
        have hik : i < k := lt_of_le_of_ne h1 hne
        exact absurd h4 (not_lt.mpr (h5 i le_rfl hik))
    · simp only [if_neg h4, ih (i + 1)]
      constructor
      · rintro ⟨h1, h2, h3, h5⟩
        refine ⟨by omega, by omega, h3, fun j hj1 hj2 => ?_⟩
        rcases eq_or_lt_of_le hj1 with rfl | hj'
        · exact not_lt.mp h4
        · exact h5 j hj' hj2
      · rintro ⟨h1, h2, h3, h5⟩
        have hik : i ≠ k := by
          rintro rfl
          exact h4 h3
        refine ⟨by omega, by omega, h3, fun j hj1 hj2 => h5 j (by omega) hj2⟩

theorem escape_time_none_iff (c : Cplx) (limit : ℕ) :
    escape_time c limit = none ↔
      ∀ j < limit, (orbitZ c (j + 1)).norm_sqr ≤ 4 := by
  have h := escapeTimeGo_none_iff c limit 0
  rw [escape_time]
  have h0 : (⟨0, 0⟩ : Cplx) = orbitZ c 0 := rfl
  rw [h0, h]
  constructor
  · intro h j hj
    exact h j (by omega) (by omega)
  · intro h j _ hj
    exact h j (by omega)

theorem escape_time_some_iff (c : Cplx) (limit i : ℕ) :
    escape_time c limit = some i ↔
      i < limit ∧ 4 < (orbitZ c (i + 1)).norm_sqr ∧
        ∀ j < i, (orbitZ c (j + 1)).norm_sqr ≤ 4 := by
  have h := escapeTimeGo_some_iff c limit 0 i
  rw [escape_time]
  have h0 : (⟨0, 0⟩ : Cplx) = orbitZ c 0 := rfl
  rw [h0, h]
  constructor
  · rintro ⟨_, h2, h3, h5⟩
    exact ⟨by omega, h3, fun j hj => h5 j (by omega) hj⟩
  · rintro ⟨h1, h3, h5⟩
    exact ⟨by omega, by omega, h3, fun j _ hj => h5 j hj⟩

/-- C2: `escape_time c limit` simulates the orbit `z₀ = 0`, `z_{n+1} = z_n² + c`
and returns `some i` exactly when loop step `i` (0-indexed) is the first step
whose freshly computed orbit value — `z_{i+1}`, since the loop updates `z`
before testing, as fixed by the spec's "escape detected at iteration 0 outside
the disk of radius 2" — has `|z|² > 4`; it returns `none` when no step within
`limit` iterations exceeds the threshold. -/
theorem escape_time_first_escape (c : Cplx) (limit : ℕ) :
    (∀ i, escape_time c limit = some i ↔
      i < limit ∧ 4 < (orbitZ c (i + 1)).norm_sqr ∧
        ∀ j < i, (orbitZ c (j + 1)).norm_sqr ≤ 4) ∧
    (escape_time c limit = none ↔
      ∀ j < limit, (orbitZ c (j + 1)).norm_sqr ≤ 4) :=
  ⟨fun i => escape_time_some_iff c limit i, escape_time_none_iff c limit⟩

/-- C7: a point strictly outside the disk of radius 2 escapes at iteration 0,
and `c = 0` never escapes within any positive limit. -/
theorem escape_time_outside_disk_and_origin (c : Cplx) (limit : ℕ) (h : 0 < limit) :
    (4 < c.norm_sqr → escape_time c limit = some 0) ∧
    escape_time ⟨0, 0⟩ limit = none := by
  constructor
  · intro hc
    rw [escape_time_some_iff]
    refine ⟨h, ?_, by omega⟩
    rwa [orbitZ_one]
  · rw [escape_time_none_iff]
    intro j _
    rw [orbitZ_zero_point]
    norm_num [Cplx.norm_sqr]

/-- Witness for C7 at `c = 3`, `limit = 1`. -/
theorem escape_time_outside_disk_and_origin_witness :
    escape_time ⟨3, 0⟩ 1 = some 0 ∧ escape_time ⟨0, 0⟩ 1 = none :=
  ⟨(escape_time_outside_disk_and_origin ⟨3, 0⟩ 1 (by decide)).1
      (by norm_num [Cplx.norm_sqr]),
   (escape_time_outside_disk_and_origin ⟨3, 0⟩ 1 (by decide)).2⟩

/-- C8: `escape_time` is monotone in the limit: a found escape index is stable
under enlarging the limit, and a `none` at limit `l1` can only turn into a
`none` or an escape at index `≥ l1` at a larger limit `l2`. -/
theorem escape_time_monotone (c : Cplx) (l1 l2 : ℕ) (h : l1 ≤ l2) :
    (∀ i, escape_time c l1 = some i → escape_time c l2 = some i) ∧
    (escape_time c l1 = none →
      escape_time c l2 = none ∨ ∃ i, l1 ≤ i ∧ escape_time c l2 = some i) := by
  constructor
  · intro i hi
    rw [escape_time_some_iff] at hi ⊢
    exact ⟨by omega, hi.2.1, hi.2.2⟩
  · intro hn
    rw [escape_time_none_iff] at hn
    cases he : escape_time c l2 with
    | none => exact Or.inl rfl
    | some i =>
      refine Or.inr ⟨i, ?_, rfl⟩
      rw [escape_time_some_iff] at he
      by_contra hlt
      exact absurd he.2.1 (not_lt.mpr (hn i (by omega)))

/-- Witness for C8 at `c = 3`, `l1 = 1`, `l2 = 2`. -/
theorem escape_time_monotone_witness : escape_time ⟨3, 0⟩ 2 = some 0 :=
  (escape_time_monotone ⟨3, 0⟩ 1 2 (by decide)).1 0
    (by norm_num [escape_time, escapeTimeGo, Cplx.mul, Cplx.add, Cplx.norm_sqr])

/-! ## The coordinate mapper -/

/-- C5: `pixel_to_point` maps pixel `(0,0)` to `upper_left` and pixel
`(pixel_width, pixel_height)` to `lower_right`; on the `100×100` grid with
window `(-1,1)`–`(1,-1)` it maps pixel `(25,75)` to `(-1/2, -1/2)`. -/
theorem pixel_to_point_corners (pw ph : ℕ) (ul lr : Cplx)
    (h1 : 0 < pw) (h2 : 0 < ph) :
    pixel_to_point pw ph (0, 0) ul lr = ul ∧
    pixel_to_point pw ph (pw, ph) ul lr = lr ∧
    pixel_to_point 100 100 (25, 75) ⟨-1, 1⟩ ⟨1, -1⟩ = ⟨-(1/2), -(1/2)⟩ := by
  have hw : (pw : ℚ) ≠ 0 := Nat.cast_ne_zero.mpr (by omega)
  have hh : (ph : ℚ) ≠ 0 := Nat.cast_ne_zero.mpr (by omega)
  refine ⟨?_, ?_, ?_⟩
  · ext <;> simp [pixel_to_point]
  · ext
    · show ul.re + (pw : ℚ) * (lr.re - ul.re) / (pw : ℚ) = lr.re
      field_simp
    · show ul.im - (ph : ℚ) * (ul.im - lr.im) / (ph : ℚ) = lr.im
      field_simp
  · ext <;> norm_num [pixel_to_point]

/-- Witness for C5 on the `100×100` grid with window `(-1,1)`–`(1,-1)`. -/
theorem pixel_to_point_corners_witness :
    pixel_to_point 100 100 (0, 0) ⟨-1, 1⟩ ⟨1, -1⟩ = ⟨-1, 1⟩ ∧
    pixel_to_point 100 100 (100, 100) ⟨-1, 1⟩ ⟨1, -1⟩ = ⟨1, -1⟩ ∧
    pixel_to_point 100 100 (25, 75) ⟨-1, 1⟩ ⟨1, -1⟩ = ⟨-(1/2), -(1/2)⟩ :=
  pixel_to_point_corners 100 100 ⟨-1, 1⟩ ⟨1, -1⟩ (by decide) (by decide)

/-! ## The band scheduler: chunk structure -/

theorem chunksOf_nil (n : ℕ) : chunksOf n ([] : List α) = [] := by
  rw [chunksOf.eq_def]
  split <;> rfl

theorem chunksOf_cons (n : ℕ) (hn : n ≠ 0) (l : List α) (hl : l ≠ []) :
    chunksOf n l = l.take n :: chunksOf n (l.drop n) := by
  rw [chunksOf.eq_def]
  rcases l with _ | ⟨x, xs⟩
  · exact absurd rfl hl
  · simp [hn]

/-- The chunks of `chunks_mut` concatenate back to the original buffer:
every byte lies in exactly one chunk, in order, with no gap and no
overlap. -/
theorem chunksOf_flatten (n : ℕ) (hn : n ≠ 0) (l : List α) :
    (chunksOf n l).flatten = l := by
  rcases l with _ | ⟨x, xs⟩
  · rw [chunksOf_nil]
    rfl
  · rw [chunksOf_cons n hn _ (by simp), List.flatten_cons,
      chunksOf_flatten n hn ((x :: xs).drop n), List.take_append_drop]
termination_by l.length
decreasing_by
  simp only [List.length_drop, List.length_cons]
  omega

/-- The `i`-th chunk is the slice of `n` elements starting at offset `n*i`. -/
theorem chunksOf_getElem? (n : ℕ) (hn : n ≠ 0) (l : List α) (i : ℕ) :
    (chunksOf n l)[i]? = if n * i < l.length then some ((l.drop (n * i)).take n)
      else none := by
  rcases l with _ | ⟨x, xs⟩
  · rw [chunksOf_nil]
    simp
  · rw [chunksOf_cons n hn _ (by simp)]
    rcases i with _ | i
    · simp
    · rw [List.getElem?_cons_succ, chunksOf_getElem? n hn ((x :: xs).drop n) i,
        List.drop_drop]
      simp only [List.length_drop, List.length_cons]
      have he : n + n * i = n * (i + 1) := by rw [Nat.mul_succ]; omega
      rw [he]
      by_cases hc : n * (i + 1) < xs.length + 1
      · rw [if_pos (by omega), if_pos hc]
      · rw [if_neg (by omega), if_neg hc]
termination_by l.length
decreasing_by
  simp only [List.length_drop, List.length_cons]
  omega

/-- Chunk `i` exists exactly when the buffer extends past offset `n*i`. -/
theorem chunksOf_lt_length_iff (n : ℕ) (hn : n ≠ 0) (l : List α) (i : ℕ) :
    i < (chunksOf n l).length ↔ n * i < l.length := by
  rcases l with _ | ⟨x, xs⟩
  · rw [chunksOf_nil]
    simp
  · rw [chunksOf_cons n hn _ (by simp)]
    rcases i with _ | i
    · simp
    · have ih := chunksOf_lt_length_iff n hn ((x :: xs).drop n) i
      simp only [List.length_cons, List.length_drop] at ih ⊢
      rw [Nat.succ_lt_succ_iff, ih, Nat.mul_succ]
      omega
termination_by l.length
decreasing_by
  simp only [List.length_drop, List.length_cons]
  omega

/-- The number of chunks is the length of the buffer divided by `n`,
rounded up. -/
theorem chunksOf_count (n : ℕ) (hn : n ≠ 0) (l : List α) :
    (chunksOf n l).length = (l.length + n - 1) / n := by
  rcases l with _ | ⟨x, xs⟩
  · rw [chunksOf_nil]
    show 0 = (0 + n - 1) / n
    exact (Nat.div_eq_of_lt (by omega)).symm
  · rw [chunksOf_cons n hn _ (by simp), List.length_cons,
      chunksOf_count n hn ((x :: xs).drop n)]
    simp only [List.length_drop, List.length_cons]
    rcases Nat.le_total (xs.length + 1) n with hle | hle
    · have h0 : xs.length + 1 - n = 0 := by omega
      have hc1 : (0 + n - 1) / n = 0 := Nat.div_eq_of_lt (by omega)
      have hc2 : (xs.length + 1 + n - 1) / n = 1 := Nat.div_eq_of_lt_le (by omega) (by omega)
      rw [h0, hc1, hc2]
    · have e1 : xs.length + 1 - n + n - 1 = xs.length := by omega
      have e2 : xs.length + 1 + n - 1 = xs.length + n := by omega
      rw [e1, e2, Nat.add_div_right _ (by omega)]
termination_by l.length
decreasing_by
  simp only [List.length_drop, List.length_cons]
  omega

/-- Splitting a buffer of `ph*B` bytes (`B` bytes per row) into chunks of
`s*B` bytes and assigning chunk `i` the row range starting at row `s*i`
with `chunk.length / B` rows yields, in order, exactly the rows
`j*s, …` — the concatenation of all row ranges is `[s*j₀, s*j₀ + ph)`. -/
theorem chunksOf_rows (B s : ℕ) (hB : B ≠ 0) (hs : s ≠ 0) (ph : ℕ)
    (l : List α) (j : ℕ) (hl : l.length = ph * B) :
    (((chunksOf (s * B) l).enumFrom j).map
        (fun p => List.range' (s * p.1) (p.2.length / B))).flatten
      = List.range' (s * j) ph := by
  rcases l with _ | ⟨x, xs⟩
  · have hph : ph = 0 := by
      simp at hl
      rcases hl with h | h
      · exact h
      · exact absurd h hB
    rw [chunksOf_nil, hph]
    rfl
  · have hsB : s * B ≠ 0 := by
      simp [hs, hB]
    rw [chunksOf_cons _ hsB _ (by simp)]
    rw [List.enumFrom_cons, List.map_cons, List.flatten_cons]
    have hlen : (x :: xs).length = ph * B := hl
    have htake : ((x :: xs).take (s * B)).length / B = min s ph := by
      rw [List.length_take, hlen]
      rcases Nat.le_total s ph with h | h
      · rw [Nat.min_eq_left (Nat.mul_le_mul_right _ h), Nat.min_eq_left h,
          Nat.mul_div_cancel _ (by omega)]
      · rw [Nat.min_eq_right (Nat.mul_le_mul_right _ h), Nat.min_eq_right h,
          Nat.mul_div_cancel _ (by omega)]
    have hdrop : ((x :: xs).drop (s * B)).length = (ph - s) * B := by
      rw [List.length_drop, hlen, Nat.sub_mul]
    rw [htake, chunksOf_rows B s hB hs (ph - s) ((x :: xs).drop (s * B)) (j + 1) hdrop]

    rcases Nat.le_total ph s with h | h
    · have h1 : min s ph = ph := Nat.min_eq_right h
      have h2 : ph - s = 0 := by omega
      rw [h1, h2]
      simp
    · have h1 : min s ph = s := Nat.min_eq_left h
      have h2 : s * (j + 1) = s * j + s := Nat.mul_succ s j
      rw [h1, h2, List.range'_append_1]
      congr 1
      omega
termination_by ph
decreasing_by
  have hph : ph ≠ 0 := by
    rintro rfl
    simp at hlen
  omega

theorem min_mul_right (a b c : ℕ) : min (a * c) (b * c) = min a b * c := by
  rcases Nat.le_total a b with h | h
  · rw [Nat.min_eq_left (Nat.mul_le_mul_right _ h), Nat.min_eq_left h]
  · rw [Nat.min_eq_right (Nat.mul_le_mul_right _ h), Nat.min_eq_right h]

theorem ceil_div_scale (ph s B : ℕ) (hs : s ≠ 0) (hB : B ≠ 0) :
    (ph * B + s * B - 1) / (s * B) = (ph + s - 1) / s := by
  have hs' : 0 < s := Nat.pos_of_ne_zero hs
  have hB' : 0 < B := Nat.pos_of_ne_zero hB
  have hsB : 0 < s * B := Nat.mul_pos hs' hB'
  set q := (ph + s - 1) / s with hq
  have hq1 : q * s ≤ ph + s - 1 := Nat.div_mul_le_self _ _
  have hq2 : ph + s - 1 < (q + 1) * s := by
    rw [← Nat.div_lt_iff_lt_mul hs']
    omega
  have h3 : ph + s ≤ (q + 1) * s := by omega
  have e1 : (ph + s - 1) * B = ph * B + s * B - B := by
    rw [Nat.sub_mul, Nat.add_mul, Nat.one_mul]
  have lo : q * (s * B) ≤ ph * B + s * B - 1 := by
    have h4 := Nat.mul_le_mul_right B hq1
    rw [e1] at h4
    rw [← Nat.mul_assoc]
    omega
  have hi2 : ph * B + s * B - 1 < (q + 1) * (s * B) := by
    have h4 := Nat.mul_le_mul_right B h3
    rw [Nat.add_mul] at h4
    rw [← Nat.mul_assoc]
    omega
  exact Nat.div_eq_of_lt_le lo hi2

theorem chunksOf_chunk_dvd (B s ph : ℕ) (hB : B ≠ 0) (hs : s ≠ 0) (l : List α)
    (hl : l.length = ph * B) :
    ∀ c ∈ chunksOf (s * B) l, B ∣ c.length := by
  intro c hc
  have hn : s * B ≠ 0 := Nat.mul_ne_zero hs hB
  obtain ⟨i, hgb⟩ := List.getElem?_of_mem hc
  have hi : i < (chunksOf (s * B) l).length := by
    by_contra hge
    rw [List.getElem?_eq_none (by omega)] at hgb
    exact Option.noConfusion hgb
  rw [chunksOf_lt_length_iff _ hn _ _] at hi
  rw [chunksOf_getElem? _ hn _ _, if_pos hi] at hgb
  have hc_len : c.length = min (s * B) (l.length - s * B * i) := by
    rw [← Option.some_inj.mp hgb]
    simp [List.length_take, List.length_drop]
  rw [hc_len, hl]
  have e2 : s * B * i = (s * i) * B := Nat.mul_right_comm _ _ _
  have e3 : ph * B - (s * i) * B = (ph - s * i) * B := by rw [Nat.sub_mul]
  rw [e2, e3, min_mul_right]
  exact dvd_mul_left _ _

/-- C1: for `pixel_width > 0` and any `pixel_height`, the bands that
`concurrent` builds with `chunks_mut(rows_per_band * pixel_width * 3)` are
consecutive non-overlapping ranges that concatenate back to the whole
buffer (every byte in exactly one band), each band is a whole number of
rows (`pixel_width*3` divides its length), and the row ranges
`[rows_per_band*i, rows_per_band*i + band_height)` assigned to the bands
concatenate, in order, to exactly `[0, pixel_height)` — no overlap, no
gap, whether or not `12` divides `pixel_height`. -/
theorem concurrent_bands_cover (pw ph : ℕ) (pixels : List ℕ)
    (hw : 0 < pw) (hlen : pixels.length = pw * ph * 3) :
    (chunksOf ((ph / 12 + 1) * pw * 3) pixels).flatten = pixels ∧
    (∀ band ∈ chunksOf ((ph / 12 + 1) * pw * 3) pixels,
      (pw * 3) ∣ band.length) ∧
    (((chunksOf ((ph / 12 + 1) * pw * 3) pixels).enum).map
        (fun p => List.range' ((ph / 12 + 1) * p.1) (p.2.length / (pw * 3)))).flatten
      = List.range ph := by
  have hB : pw * 3 ≠ 0 := by omega
  have hs : ph / 12 + 1 ≠ 0 := by omega
  have hassoc : (ph / 12 + 1) * pw * 3 = (ph / 12 + 1) * (pw * 3) :=
    Nat.mul_assoc _ _ _
  have hlen' : pixels.length = ph * (pw * 3) := by rw [hlen]; ring
  have hn : (ph / 12 + 1) * (pw * 3) ≠ 0 := Nat.mul_ne_zero hs hB
  refine ⟨?_, ?_, ?_⟩
  · rw [hassoc]
    exact chunksOf_flatten _ hn pixels
  · intro band hband
    rw [hassoc] at hband
    exact chunksOf_chunk_dvd (pw * 3) (ph / 12 + 1) ph hB hs pixels hlen' band hband
  · rw [hassoc]
    have h := chunksOf_rows (pw * 3) (ph / 12 + 1) hB hs ph pixels 0 hlen'
    have henum : (chunksOf ((ph / 12 + 1) * (pw * 3)) pixels).enum
        = (chunksOf ((ph / 12 + 1) * (pw * 3)) pixels).enumFrom 0 := rfl
    rw [henum, h, Nat.mul_zero, List.range_eq_range']

/-- Witness for C1 at `pixel_width = 1`, `pixel_height = 2`. -/
theorem concurrent_bands_cover_witness :
    (chunksOf ((2 / 12 + 1) * 1 * 3) (List.replicate 6 (0 : ℕ))).flatten
      = List.replicate 6 0 :=
  (concurrent_bands_cover 1 2 (List.replicate 6 0) (by decide) (by decide)).1

/-- C6 (amended): the scheduler computes `rows_per_band = ⌊pixel_height/12⌋ + 1`
and produces `⌈pixel_height / rows_per_band⌉` bands — at most 12, but fewer
than 12 for many heights — all of height exactly `rows_per_band` except the
last, whose height is the positive remainder `pixel_height - rows_per_band*i`
and is at most (not necessarily strictly less than) `rows_per_band`; together
the bands cover the `pixel_height` rows exactly once. -/
theorem concurrent_bands_heights (pw ph : ℕ) (pixels : List ℕ)
    (hw : 0 < pw) (hlen : pixels.length = pw * ph * 3) :
    (chunksOf ((ph / 12 + 1) * pw * 3) pixels).length
        = (ph + (ph / 12 + 1) - 1) / (ph / 12 + 1) ∧
    (chunksOf ((ph / 12 + 1) * pw * 3) pixels).length ≤ 12 ∧
    (∀ i, i + 1 < (chunksOf ((ph / 12 + 1) * pw * 3) pixels).length →
      ∃ b, (chunksOf ((ph / 12 + 1) * pw * 3) pixels)[i]? = some b ∧
        b.length = (ph / 12 + 1) * (pw * 3)) ∧
    (∀ i, i + 1 = (chunksOf ((ph / 12 + 1) * pw * 3) pixels).length →
      ∃ b, (chunksOf ((ph / 12 + 1) * pw * 3) pixels)[i]? = some b ∧
        b.length = (ph - (ph / 12 + 1) * i) * (pw * 3) ∧
        0 < ph - (ph / 12 + 1) * i ∧ ph - (ph / 12 + 1) * i ≤ ph / 12 + 1) ∧
    (((chunksOf ((ph / 12 + 1) * pw * 3) pixels).enum).map
        (fun p => List.range' ((ph / 12 + 1) * p.1) (p.2.length / (pw * 3)))).flatten
      = List.range ph := by
  have hB : pw * 3 ≠ 0 := by omega
  have hs : ph / 12 + 1 ≠ 0 := by omega
  have hassoc : (ph / 12 + 1) * pw * 3 = (ph / 12 + 1) * (pw * 3) :=
    Nat.mul_assoc _ _ _
  have hlen' : pixels.length = ph * (pw * 3) := by rw [hlen]; ring
  have hn : (ph / 12 + 1) * (pw * 3) ≠ 0 := Nat.mul_ne_zero hs hB
  have e2 : ∀ i : ℕ, (ph / 12 + 1) * (pw * 3) * i = ((ph / 12 + 1) * i) * (pw * 3) :=
    fun i => Nat.mul_right_comm _ _ _
  refine ⟨?_, ?_, ?_, ?_, ?_⟩
  · rw [hassoc, chunksOf_count _ hn, hlen']
    exact ceil_div_scale ph (ph / 12 + 1) (pw * 3) hs hB
  · rw [hassoc]
    by_contra h12
    push_neg at h12
    have h12' := (chunksOf_lt_length_iff _ hn pixels 12).mp h12
    rw [hlen', e2 12] at h12'
    have hlt := Nat.lt_of_mul_lt_mul_right h12'
    omega
  · intro i hi1
    rw [hassoc] at hi1 ⊢
    have hi : i < (chunksOf ((ph / 12 + 1) * (pw * 3)) pixels).length := by omega
    have hilt := (chunksOf_lt_length_iff _ hn pixels i).mp hi
    have hilt1 := (chunksOf_lt_length_iff _ hn pixels (i + 1)).mp hi1
    refine ⟨_, by rw [chunksOf_getElem? _ hn _ _, if_pos hilt], ?_⟩
    simp only [List.length_take, List.length_drop]
    rw [hlen'] at hilt1 ⊢
    apply Nat.min_eq_left
    rw [e2 i]
    rw [e2 (i + 1), Nat.mul_succ, Nat.add_mul] at hilt1
    omega
  · intro i hi1
    rw [hassoc] at hi1 ⊢
    have hi : i < (chunksOf ((ph / 12 + 1) * (pw * 3)) pixels).length := by omega
    have hilt := (chunksOf_lt_length_iff _ hn pixels i).mp hi
    have hnlt : ¬ ((ph / 12 + 1) * (pw * 3) * (i + 1) < pixels.length) := by
      intro hcon
      have := (chunksOf_lt_length_iff _ hn pixels (i + 1)).mpr hcon
      omega
    refine ⟨_, by rw [chunksOf_getElem? _ hn _ _, if_pos hilt], ?_, ?_, ?_⟩
    · simp only [List.length_take, List.length_drop]
      rw [hlen', e2 i]
      rw [hlen', e2 (i + 1), Nat.mul_succ, Nat.add_mul] at hnlt
      rw [Nat.min_eq_right (by omega), Nat.sub_mul]
    · rw [hlen', e2 i] at hilt
      have := Nat.lt_of_mul_lt_mul_right (Nat.mul_comm _ _ ▸ hilt : ((ph / 12 + 1) * i) * (pw * 3) < ph * (pw * 3))
      omega
    · rw [hlen', e2 (i + 1), Nat.mul_succ, Nat.add_mul] at hnlt
      have hle : ph * (pw * 3) ≤ ((ph / 12 + 1) * i) * (pw * 3) + (ph / 12 + 1) * (pw * 3) := by
        omega
      have hle2 : ph * (pw * 3) ≤ ((ph / 12 + 1) * i + (ph / 12 + 1)) * (pw * 3) := by
        rw [Nat.add_mul]
        exact hle
      have := Nat.le_of_mul_le_mul_right hle2 (by omega)
      omega
  · rw [hassoc]
    have h := chunksOf_rows (pw * 3) (ph / 12 + 1) hB hs ph pixels 0 hlen'
    have henum : (chunksOf ((ph / 12 + 1) * (pw * 3)) pixels).enum
        = (chunksOf ((ph / 12 + 1) * (pw * 3)) pixels).enumFrom 0 := rfl
    rw [henum, h, Nat.mul_zero, List.range_eq_range']

/-- Counterexample to C6 as stated: at `pixel_height = 12`, `pixel_width = 1`
the scheduler produces 6 bands (not `T = 12`), all of the same length — the
last band is not strictly shorter than the rest. -/
theorem concurrent_bands_heights_counterexample :
    (chunksOf ((12 / 12 + 1) * 1 * 3) (List.replicate (1 * 12 * 3) (0 : ℕ))).length ≠ 12 ∧
    ((chunksOf ((12 / 12 + 1) * 1 * 3) (List.replicate (1 * 12 * 3) (0 : ℕ))).map
        List.length) = [6, 6, 6, 6, 6, 6] := by
  constructor
  · norm_num [chunksOf, List.replicate]
  · norm_num [chunksOf, List.replicate]

/-- Witness for C6 (amended) at `pixel_width = 1`, `pixel_height = 2`:
two bands are produced. -/
theorem concurrent_bands_heights_witness :
    (chunksOf ((2 / 12 + 1) * 1 * 3) (List.replicate 6 (0 : ℕ))).length
      = (2 + (2 / 12 + 1) - 1) / (2 / 12 + 1) :=
  (concurrent_bands_heights 1 2 (List.replicate 6 0) (by decide) (by decide)).1

/-! ## The scanline renderer -/

theorem renderWritePixel_length (pw ph : ℕ) (ul lr : Cplx) (row col : ℕ)
    (buf : List ℕ) :
    (renderWritePixel pw ph ul lr row col buf).length = buf.length := by
  simp only [renderWritePixel]
  rcases hesc : escape_time (pixel_to_point pw ph (col, row) ul lr) 255 with _ | count <;>
    simp [hesc]

theorem renderWritePixel_getElem?_ne (pw ph : ℕ) (ul lr : Cplx) (row col : ℕ)
    (buf : List ℕ) (j : ℕ)
    (h0 : j ≠ row * pw * 3 + col * 3) (h1 : j ≠ row * pw * 3 + col * 3 + 1)
    (h2 : j ≠ row * pw * 3 + col * 3 + 2) :
    (renderWritePixel pw ph ul lr row col buf)[j]? = buf[j]? := by
  simp only [renderWritePixel]
  rcases hesc : escape_time (pixel_to_point pw ph (col, row) ul lr) 255 with _ | count <;>
    simp only [hesc] <;>
    rw [List.getElem?_set_ne (by omega), List.getElem?_set_ne (by omega),
      List.getElem?_set_ne (by omega)]

theorem renderWritePixel_getElem?_eq (pw ph : ℕ) (ul lr : Cplx) (row col : ℕ)
    (buf : List ℕ) (hlt : row * pw * 3 + col * 3 + 2 < buf.length) :
    (renderWritePixel pw ph ul lr row col buf)[row * pw * 3 + col * 3]?
        = some (colorTriple pw ph ul lr row col).1 ∧
    (renderWritePixel pw ph ul lr row col buf)[row * pw * 3 + col * 3 + 1]?
        = some (colorTriple pw ph ul lr row col).2.1 ∧
    (renderWritePixel pw ph ul lr row col buf)[row * pw * 3 + col * 3 + 2]?
        = some (colorTriple pw ph ul lr row col).2.2 := by
  simp only [renderWritePixel, colorTriple]
  rcases hesc : escape_time (pixel_to_point pw ph (col, row) ul lr) 255 with _ | count <;>
    simp only [hesc] <;>
    refine ⟨?_, ?_, ?_⟩ <;>
    [ rw [List.getElem?_set_ne (by omega), List.getElem?_set_ne (by omega),
        List.getElem?_set_self (by (try simp only [List.length_set]); omega)];
      rw [List.getElem?_set_ne (by omega),
        List.getElem?_set_self (by (try simp only [List.length_set]); omega)];
      rw [List.getElem?_set_self (by (try simp only [List.length_set]); omega)];
      rw [List.getElem?_set_ne (by omega), List.getElem?_set_ne (by omega),
        List.getElem?_set_self (by (try simp only [List.length_set]); omega)];
      rw [List.getElem?_set_ne (by omega),
        List.getElem?_set_self (by (try simp only [List.length_set]); omega)];
      rw [List.getElem?_set_self (by (try simp only [List.length_set]); omega)] ]

theorem renderRowFold_length (pw ph : ℕ) (ul lr : Cplx) (row : ℕ) (buf : List ℕ) :
    ∀ m, ((List.range m).foldl
        (fun buf2 column => renderWritePixel pw ph ul lr row column buf2) buf).length
      = buf.length := by
  intro m
  induction m with
  | zero => rfl
  | succ m ih =>
    rw [List.range_succ, List.foldl_append, List.foldl_cons, List.foldl_nil,
      renderWritePixel_length, ih]

theorem renderRowFold_getElem?_out (pw ph : ℕ) (ul lr : Cplx) (row : ℕ)
    (buf : List ℕ) (j : ℕ) :
    ∀ m, (j < row * pw * 3 ∨ row * pw * 3 + m * 3 ≤ j) →
      ((List.range m).foldl
        (fun buf2 column => renderWritePixel pw ph ul lr row column buf2) buf)[j]?
      = buf[j]? := by
  intro m
  induction m with
  | zero => intro _; rfl
  | succ m ih =>
    intro hj
    rw [List.range_succ, List.foldl_append, List.foldl_cons, List.foldl_nil,
      renderWritePixel_getElem?_ne _ _ _ _ _ _ _ _ (by omega) (by omega) (by omega),
      ih (by omega)]

theorem renderRowFold_getElem?_hit (pw ph : ℕ) (ul lr : Cplx) (row : ℕ)
    (buf : List ℕ) (hbuf : row * pw * 3 + pw * 3 ≤ buf.length) :
    ∀ m, m ≤ pw → ∀ col, col < m →
      (((List.range m).foldl
          (fun buf2 column => renderWritePixel pw ph ul lr row column buf2)
          buf)[row * pw * 3 + col * 3]?
        = some (colorTriple pw ph ul lr row col).1 ∧
      ((List.range m).foldl
          (fun buf2 column => renderWritePixel pw ph ul lr row column buf2)
          buf)[row * pw * 3 + col * 3 + 1]?
        = some (colorTriple pw ph ul lr row col).2.1 ∧
      ((List.range m).foldl
          (fun buf2 column => renderWritePixel pw ph ul lr row column buf2)
          buf)[row * pw * 3 + col * 3 + 2]?
        = some (colorTriple pw ph ul lr row col).2.2) := by
  intro m
  induction m with
  | zero => intro _ col hcol; omega
  | succ m ih =>
    intro hm col hcol
    rw [List.range_succ, List.foldl_append, List.foldl_cons, List.foldl_nil]
    rcases Nat.lt_or_ge col m with hlt | hge
    · obtain ⟨e0, e1, e2⟩ := ih (by omega) col hlt
      refine ⟨?_, ?_, ?_⟩
      · rw [renderWritePixel_getElem?_ne _ _ _ _ _ _ _ _ (by omega) (by omega) (by omega), e0]
      · rw [renderWritePixel_getElem?_ne _ _ _ _ _ _ _ _ (by omega) (by omega) (by omega), e1]
      · rw [renderWritePixel_getElem?_ne _ _ _ _ _ _ _ _ (by omega) (by omega) (by omega), e2]
    · have hcm : col = m := by omega
      subst hcm
      apply renderWritePixel_getElem?_eq
      rw [renderRowFold_length]
      have h3 : col * 3 + 3 ≤ pw * 3 := by omega
      omega

theorem renderRowsFold_length (pw ph : ℕ) (ul lr : Cplx) (buf : List ℕ) :
    ∀ m, ((List.range m).foldl
        (fun buf1 row =>
          (List.range pw).foldl
            (fun buf2 column => renderWritePixel pw ph ul lr row column buf2) buf1)
        buf).length
      = buf.length := by
  intro m
  induction m with
  | zero => rfl
  | succ m ih =>
    rw [List.range_succ, List.foldl_append, List.foldl_cons, List.foldl_nil,
      renderRowFold_length, ih]

theorem renderRowsFold_getElem?_hit (pw ph : ℕ) (ul lr : Cplx) (buf : List ℕ)
    (hbuf : buf.length = pw * ph * 3) :
    ∀ m, m ≤ ph → ∀ row, row < m → ∀ col, col < pw →
      (((List.range m).foldl
          (fun buf1 r =>
            (List.range pw).foldl
              (fun buf2 column => renderWritePixel pw ph ul lr r column buf2) buf1)
          buf)[row * pw * 3 + col * 3]?
        = some (colorTriple pw ph ul lr row col).1 ∧
      ((List.range m).foldl
          (fun buf1 r =>
            (List.range pw).foldl
              (fun buf2 column => renderWritePixel pw ph ul lr r column buf2) buf1)
          buf)[row * pw * 3 + col * 3 + 1]?
        = some (colorTriple pw ph ul lr row col).2.1 ∧
      ((List.range m).foldl
          (fun buf1 r =>
            (List.range pw).foldl
              (fun buf2 column => renderWritePixel pw ph ul lr r column buf2) buf1)
          buf)[row * pw * 3 + col * 3 + 2]?
        = some (colorTriple pw ph ul lr row col).2.2) := by
  intro m
  induction m with
  | zero => intro _ row hrow; omega
  | succ m ih =>
    intro hm row hrow col hcol
    rw [List.range_succ, List.foldl_append, List.foldl_cons, List.foldl_nil]
    rcases Nat.lt_or_ge row m with hlt | hge
    · obtain ⟨e0, e1, e2⟩ := ih (by omega) row hlt col hcol
      have hmono : (row + 1) * pw ≤ m * pw :=
        Nat.mul_le_mul_right pw (by omega)
      rw [Nat.add_mul, Nat.one_mul] at hmono
      refine ⟨?_, ?_, ?_⟩
      · rw [renderRowFold_getElem?_out _ _ _ _ _ _ _ _ (Or.inl (by omega)), e0]
      · rw [renderRowFold_getElem?_out _ _ _ _ _ _ _ _ (Or.inl (by omega)), e1]
      · rw [renderRowFold_getElem?_out _ _ _ _ _ _ _ _ (Or.inl (by omega)), e2]
    · have hrm : row = m := by omega
      subst hrm
      apply renderRowFold_getElem?_hit
      · rw [renderRowsFold_length]
        have h1 : (row + 1) * (pw * 3) ≤ ph * (pw * 3) :=
          Nat.mul_le_mul_right (pw * 3) (by omega)
        have e3 : (row + 1) * (pw * 3) = row * pw * 3 + pw * 3 := by ring
        have e4 : ph * (pw * 3) = pw * ph * 3 := by ring
        omega
      · exact le_rfl
      · exact hcol

theorem renderCore_length (pw ph : ℕ) (ul lr : Cplx) (buf : List ℕ) :
    (renderCore pw ph ul lr buf).length = buf.length := by
  rw [renderCore, renderRowsFold_length]

theorem renderCore_getElem? (pw ph : ℕ) (ul lr : Cplx) (buf : List ℕ)
    (hbuf : buf.length = pw * ph * 3) (row col : ℕ)
    (hrow : row < ph) (hcol : col < pw) :
    (renderCore pw ph ul lr buf)[row * pw * 3 + col * 3]?
        = some (colorTriple pw ph ul lr row col).1 ∧
    (renderCore pw ph ul lr buf)[row * pw * 3 + col * 3 + 1]?
        = some (colorTriple pw ph ul lr row col).2.1 ∧
    (renderCore pw ph ul lr buf)[row * pw * 3 + col * 3 + 2]?
        = some (colorTriple pw ph ul lr row col).2.2 := by
  rw [renderCore]
  exact renderRowsFold_getElem?_hit pw ph ul lr buf hbuf ph le_rfl row hrow col hcol

/-- Every byte index of a `pixel_width × pixel_height` RGB buffer decomposes
uniquely as `row*pixel_width*3 + column*3 + k` with in-range coordinates. -/
theorem index_decompose (pw h j : ℕ) (hj : j < pw * h * 3) :
    ∃ row col k, row < h ∧ col < pw ∧ k < 3 ∧
      j = row * pw * 3 + col * 3 + k := by
  rcases Nat.eq_zero_or_pos pw with rfl | hpw
  · simp at hj
  have h1 := Nat.div_add_mod j (pw * 3)
  have h2 := Nat.div_add_mod (j % (pw * 3)) 3
  have h3 : j % (pw * 3) < pw * 3 := Nat.mod_lt _ (by omega)
  have h4 : j / (pw * 3) < h := by
    rw [Nat.div_lt_iff_lt_mul (by omega : 0 < pw * 3)]
    calc j < pw * h * 3 := hj
      _ = h * (pw * 3) := by ring
  have h5 : j % (pw * 3) / 3 < pw := by
    rw [Nat.div_lt_iff_lt_mul (by omega : (0 : ℕ) < 3)]
    omega
  refine ⟨j / (pw * 3), j % (pw * 3) / 3, j % (pw * 3) % 3, h4, h5,
    Nat.mod_lt _ (by omega), ?_⟩
  have e1 : j / (pw * 3) * pw * 3 = pw * 3 * (j / (pw * 3)) := by ring
  have e2 : j % (pw * 3) / 3 * 3 = 3 * (j % (pw * 3) / 3) := by ring
  rw [e1, e2]
  omega

/-- C9: render fails fast — if the region length differs from
`pixel_width * pixel_height * 3` the `assert!` fires (modelled as `none`)
before any byte is written; the fill is never truncated and the region
never overrun. -/
theorem render_length_precondition (pixels : List ℕ) (pw ph : ℕ) (ul lr : Cplx)
    (h : pixels.length ≠ pw * ph * 3) :
    render pixels pw ph ul lr = none := by
  rw [render, if_neg h]

/-- Witness for C9: a 1-byte region for a `1×1` image (needs 3 bytes). -/
theorem render_length_precondition_witness :
    render [0] 1 1 ⟨0, 0⟩ ⟨0, 0⟩ = none :=
  render_length_precondition [0] 1 1 ⟨0, 0⟩ ⟨0, 0⟩ (by decide)

/-- C3: on a region of the correct length, `render` succeeds, keeps the
length, decomposes every byte index into a unique pixel-channel position,
and writes black `(0,0,0)` for non-escaping points and
`(255 - count, column*255/pixel_width, 255 - column*255/pixel_width)` for
points escaping at iteration `count`; `count < 255` and
`column*255/pixel_width < 255`, so each channel value fits in a byte with
no `as u8` truncation. -/
theorem render_fills_region (pixels : List ℕ) (pw ph : ℕ) (ul lr : Cplx)
    (hlen : pixels.length = pw * ph * 3) :
    ∃ out, render pixels pw ph ul lr = some out ∧ out.length = pw * ph * 3 ∧
      (∀ j < pw * ph * 3, ∃ row col k, row < ph ∧ col < pw ∧ k < 3 ∧
        j = row * pw * 3 + col * 3 + k) ∧
      ∀ row col, row < ph → col < pw →
        (escape_time (pixel_to_point pw ph (col, row) ul lr) 255 = none →
          out[row * pw * 3 + col * 3]? = some 0 ∧
          out[row * pw * 3 + col * 3 + 1]? = some 0 ∧
          out[row * pw * 3 + col * 3 + 2]? = some 0) ∧
        ∀ count,
          escape_time (pixel_to_point pw ph (col, row) ul lr) 255 = some count →
          count < 255 ∧ col * 255 / pw < 255 ∧
          out[row * pw * 3 + col * 3]? = some (255 - count) ∧
          out[row * pw * 3 + col * 3 + 1]? = some (col * 255 / pw) ∧
          out[row * pw * 3 + col * 3 + 2]? = some (255 - col * 255 / pw) := by
  refine ⟨renderCore pw ph ul lr pixels, by rw [render, if_pos hlen],
    by rw [renderCore_length, hlen], fun j hj => index_decompose pw ph j hj, ?_⟩
  intro row col hrow hcol
  obtain ⟨e0, e1, e2⟩ := renderCore_getElem? pw ph ul lr pixels hlen row col hrow hcol
  constructor
  · intro hesc
    rw [e0, e1, e2]
    refine ⟨?_, ?_, ?_⟩ <;> simp [colorTriple, hesc]
  · intro count hesc
    have hcount : count < 255 := ((escape_time_some_iff _ _ _).mp hesc).1
    have hpw : 0 < pw := by omega
    have hdivlt : col * 255 / pw < 255 := by
      rw [Nat.div_lt_iff_lt_mul hpw]
      have h255 := Nat.mul_le_mul_right 255 (show col + 1 ≤ pw by omega)
      rw [Nat.add_mul, Nat.one_mul] at h255
      omega
    refine ⟨hcount, hdivlt, ?_, ?_, ?_⟩
    · rw [e0]
      simp [colorTriple, hesc, Nat.mod_eq_of_lt (show count < 256 by omega)]
    · rw [e1]
      simp [colorTriple, hesc, Nat.mod_eq_of_lt (show col * 255 / pw < 256 by omega)]
    · rw [e2]
      have hsub : 255 - col * 255 / pw < 256 := by
        have hs := Nat.sub_le 255 (col * 255 / pw)
        omega
      simp [colorTriple, hesc, Nat.mod_eq_of_lt hsub]

/-- Witness for C3 on a `1×1` region. -/
theorem render_fills_region_witness :
    (render [0, 0, 0] 1 1 ⟨0, 0⟩ ⟨0, 0⟩).isSome := by
  obtain ⟨out, h1, -⟩ := render_fills_region [0, 0, 0] 1 1 ⟨0, 0⟩ ⟨0, 0⟩ (by decide)
  rw [h1]
  rfl

/-! ## Band windows and the concurrent path -/

/-- Rendering a band of `bh` rows starting at row `top` against the band
sub-window computed by `concurrent` addresses exactly the same plane points
as the full render does at row `top + r`: the band window construction
preserves scale. -/
theorem pixel_to_point_band (pw ph : ℕ) (ul lr : Cplx) (top bh col r : ℕ)
    (hw : 0 < pw) (hph : 0 < ph) (hbh : 0 < bh) :
    pixel_to_point pw bh (col, r)
        (pixel_to_point pw ph (0, top) ul lr)
        (pixel_to_point pw ph (pw, top + bh) ul lr)
      = pixel_to_point pw ph (col, top + r) ul lr := by
  have hw' : (pw : ℚ) ≠ 0 := Nat.cast_ne_zero.mpr (by omega)
  have hph' : (ph : ℚ) ≠ 0 := Nat.cast_ne_zero.mpr (by omega)
  have hbh' : (bh : ℚ) ≠ 0 := Nat.cast_ne_zero.mpr (by omega)
  ext
  · simp only [pixel_to_point]
    push_cast
    field_simp
    try ring
  · simp only [pixel_to_point]
    push_cast
    field_simp
    try ring

theorem colorTriple_band (pw ph : ℕ) (ul lr : Cplx) (top bh col r : ℕ)
    (hw : 0 < pw) (hph : 0 < ph) (hbh : 0 < bh) :
    colorTriple pw bh
        (pixel_to_point pw ph (0, top) ul lr)
        (pixel_to_point pw ph (pw, top + bh) ul lr) r col
      = colorTriple pw ph ul lr (top + r) col := by
  rw [colorTriple, colorTriple, pixel_to_point_band pw ph ul lr top bh col r hw hph hbh]

/-- `render` succeeds on any band whose length is a whole number of rows,
for any window: the `assert!` cannot fire. -/
theorem render_isSome_of_dvd (band : List ℕ) (pw : ℕ) (a b : Cplx)
    (hdvd : (pw * 3) ∣ band.length) :
    (render band pw (band.length / (pw * 3)) a b).isSome := by
  obtain ⟨k, hk⟩ := hdvd
  rcases Nat.eq_zero_or_pos pw with rfl | hpw
  · have hb : band.length = 0 := by omega
    have hcond : band.length = 0 * (band.length / (0 * 3)) * 3 := by
      rw [hb]
    rw [render, if_pos hcond]
    rfl
  · have hq : band.length / (pw * 3) = k := by
      rw [hk, Nat.mul_comm, Nat.mul_div_cancel _ (by omega)]
    have hcond : band.length = pw * (band.length / (pw * 3)) * 3 := by
      rw [hq, hk]
      ring
    rw [render, if_pos hcond]
    rfl

theorem spawnAll_isSome (pw ph : ℕ) (ul lr : Cplx) (rpb : ℕ) :
    ∀ l : List (ℕ × List ℕ), (∀ p ∈ l, (pw * 3) ∣ p.2.length) →
      (spawnAll pw ph ul lr rpb l).isSome := by
  intro l
  induction l with
  | nil => intro _; rfl
  | cons hd tl ih =>
    intro hall
    rcases hd with ⟨i, band⟩
    simp only [spawnAll]
    have hdvd : (pw * 3) ∣ band.length := hall (i, band) (by simp)
    obtain ⟨out, hout⟩ := Option.isSome_iff_exists.mp
      (render_isSome_of_dvd band pw
        (pixel_to_point pw ph (0, rpb * i) ul lr)
        (pixel_to_point pw ph (pw, rpb * i + band.length / (pw * 3)) ul lr) hdvd)
    obtain ⟨outs, houts⟩ := Option.isSome_iff_exists.mp
      (ih (fun p hp => hall p (by simp [hp])))
    rw [hout, houts]
    rfl

/-- C10: with `pixel_width > 0` and a correctly-sized buffer, every band
dispatched by `concurrent` satisfies `render`'s length precondition:
`pixel_width * 3` divides each chunk length, so
`band.len() = (band.len() / (pixel_width * 3)) * (pixel_width * 3)` and the
`assert!` inside `render` is unreachable on every worker — for any window
arguments — and the whole concurrent render succeeds. -/
theorem concurrent_bands_assert_unreachable (pw ph : ℕ) (pixels : List ℕ)
    (ul lr : Cplx) (hw : 0 < pw) (hlen : pixels.length = pw * ph * 3) :
    (∀ band ∈ chunksOf ((ph / 12 + 1) * pw * 3) pixels,
      band.length = band.length / (pw * 3) * (pw * 3) ∧
      ∀ a b, (render band pw (band.length / (pw * 3)) a b).isSome) ∧
    (concurrent pixels pw ph ul lr).isSome := by
  have hB : pw * 3 ≠ 0 := by omega
  have hs : ph / 12 + 1 ≠ 0 := by omega
  have hassoc : (ph / 12 + 1) * pw * 3 = (ph / 12 + 1) * (pw * 3) :=
    Nat.mul_assoc _ _ _
  have hlen' : pixels.length = ph * (pw * 3) := by rw [hlen]; ring
  constructor
  · intro band hband
    rw [hassoc] at hband
    have hdvd := chunksOf_chunk_dvd (pw * 3) (ph / 12 + 1) ph hB hs pixels hlen' band hband
    refine ⟨(Nat.div_mul_cancel hdvd).symm, fun a b => render_isSome_of_dvd band pw a b hdvd⟩
  · rw [concurrent]
    rw [if_neg (by simp only [hassoc]; exact Nat.mul_ne_zero hs hB)]
    rw [Option.isSome_map']
    apply spawnAll_isSome
    intro p hp
    have hp2 : p.2 ∈ chunksOf ((ph / 12 + 1) * pw * 3) pixels := by
      have hmap := List.enumFrom_map_snd 0 (chunksOf ((ph / 12 + 1) * pw * 3) pixels)
      rw [← hmap]
      exact List.mem_map_of_mem Prod.snd hp
    rw [hassoc] at hp2
    exact chunksOf_chunk_dvd (pw * 3) (ph / 12 + 1) ph hB hs pixels hlen' p.2 hp2

/-- Witness for C10 at `pixel_width = 1`, `pixel_height = 2`. -/
theorem concurrent_bands_assert_unreachable_witness :
    (concurrent (List.replicate 6 0) 1 2 ⟨0, 0⟩ ⟨1, -1⟩).isSome :=
  (concurrent_bands_assert_unreachable 1 2 (List.replicate 6 0) ⟨0, 0⟩ ⟨1, -1⟩
    (by decide) (by decide)).2

/-- The worker loop, run on the chunks of a tail of the buffer starting at
band index `j` (so at row `s*j`), succeeds and produces exactly the bytes
that the full single-threaded render produces from row `s*j` on. -/
theorem spawnAll_renders (pw ph s : ℕ) (ul lr : Cplx) (pixels : List ℕ)
    (hw : 0 < pw) (hs : 0 < s) (hlenFull : pixels.length = pw * ph * 3) :
    ∀ rem (l : List ℕ) (j : ℕ), ph = s * j + rem → l.length = rem * (pw * 3) →
      ∃ outs,
        spawnAll pw ph ul lr s ((chunksOf (s * (pw * 3)) l).enumFrom j) = some outs ∧
        outs.flatten
          = (renderCore pw ph ul lr pixels).drop (s * j * (pw * 3)) := by
  intro rem
  induction rem using Nat.strong_induction_on with
  | _ rem ih =>
    intro l j hph hl
    have hFlen : (renderCore pw ph ul lr pixels).length = pw * ph * 3 := by
      rw [renderCore_length, hlenFull]
    rcases l with _ | ⟨x, xs⟩
    · have hrem : rem = 0 := by
        have h0 : 0 = rem * (pw * 3) := hl
        rcases Nat.eq_zero_or_pos rem with h | h
        · exact h
        · have := Nat.mul_pos h (show 0 < pw * 3 by omega)
          omega
      refine ⟨[], by rw [chunksOf_nil]; rfl, ?_⟩
      rw [List.flatten_nil]
      have hle : (renderCore pw ph ul lr pixels).length ≤ s * j * (pw * 3) := by
        have e : pw * ph * 3 = s * j * (pw * 3) := by
          rw [hph, hrem]
          ring
        omega
      exact (List.drop_eq_nil_of_le hle).symm
    · have hrem : 0 < rem := by
        rcases Nat.eq_zero_or_pos rem with h | h
        · subst h
          simp at hl
        · exact h
      have hsB : s * (pw * 3) ≠ 0 := Nat.mul_ne_zero (by omega) (by omega)
      rw [chunksOf_cons _ hsB _ (by simp), List.enumFrom_cons]
      simp only [spawnAll]
      have hbandlen : ((x :: xs).take (s * (pw * 3))).length = min s rem * (pw * 3) := by
        rw [List.length_take, hl, min_mul_right]
      have hbh : ((x :: xs).take (s * (pw * 3))).length / (pw * 3) = min s rem := by
        rw [hbandlen, Nat.mul_div_cancel _ (by omega)]
      rw [hbh]
      have hbhpos : 0 < min s rem := by omega
      have hphpos : 0 < ph := by omega
      have hbandlen' : ((x :: xs).take (s * (pw * 3))).length = pw * min s rem * 3 := by
        rw [hbandlen]
        ring
      have hrender : render ((x :: xs).take (s * (pw * 3))) pw (min s rem)
          (pixel_to_point pw ph (0, s * j) ul lr)
          (pixel_to_point pw ph (pw, s * j + min s rem) ul lr)
          = some (renderCore pw (min s rem)
              (pixel_to_point pw ph (0, s * j) ul lr)
              (pixel_to_point pw ph (pw, s * j + min s rem) ul lr)
              ((x :: xs).take (s * (pw * 3)))) := by
        rw [render, if_pos hbandlen']
      have hbandout : renderCore pw (min s rem)
          (pixel_to_point pw ph (0, s * j) ul lr)
          (pixel_to_point pw ph (pw, s * j + min s rem) ul lr)
          ((x :: xs).take (s * (pw * 3)))
          = ((renderCore pw ph ul lr pixels).drop (s * j * (pw * 3))).take
              (min s rem * (pw * 3)) := by
        apply List.ext_getElem?
        intro idx
        by_cases hidx : idx < min s rem * (pw * 3)
        · obtain ⟨r, col, k, hr, hcol, hk, hidx_eq⟩ :=
            index_decompose pw (min s rem) idx
              (by
                have e : pw * min s rem * 3 = min s rem * (pw * 3) := by ring
                omega)
          subst hidx_eq
          obtain ⟨f0, f1, f2⟩ := renderCore_getElem? pw (min s rem)
            (pixel_to_point pw ph (0, s * j) ul lr)
            (pixel_to_point pw ph (pw, s * j + min s rem) ul lr)
            ((x :: xs).take (s * (pw * 3))) hbandlen' r col hr hcol
          obtain ⟨g0, g1, g2⟩ := renderCore_getElem? pw ph ul lr pixels hlenFull
            (s * j + r) col (by omega) hcol
          have hct := colorTriple_band pw ph ul lr (s * j) (min s rem) col r
            hw hphpos hbhpos
          interval_cases k
          · simp only [Nat.add_zero] at hidx ⊢
            have hidx2 : s * j * (pw * 3) + (r * pw * 3 + col * 3)
                = (s * j + r) * pw * 3 + col * 3 := by ring
            rw [f0, List.getElem?_take_of_lt hidx, List.getElem?_drop, hidx2, g0, hct]
          · have hidx2 : s * j * (pw * 3) + (r * pw * 3 + col * 3 + 1)
                = (s * j + r) * pw * 3 + col * 3 + 1 := by ring
            rw [f1, List.getElem?_take_of_lt hidx, List.getElem?_drop, hidx2, g1, hct]
          · have hidx2 : s * j * (pw * 3) + (r * pw * 3 + col * 3 + 2)
                = (s * j + r) * pw * 3 + col * 3 + 2 := by ring
            rw [f2, List.getElem?_take_of_lt hidx, List.getElem?_drop, hidx2, g2, hct]
        · push_neg at hidx
          rw [List.getElem?_eq_none
                (by
                  rw [renderCore_length, hbandlen']
                  have e : pw * min s rem * 3 = min s rem * (pw * 3) := by ring
                  omega),
              List.getElem?_eq_none
                (by
                  simp only [List.length_take, List.length_drop]
                  omega)]
      rcases Nat.le_total rem s with hle | hle
      · have hdropnil : (x :: xs).drop (s * (pw * 3)) = [] := by
          apply List.drop_eq_nil_of_le
          rw [hl]
          exact Nat.mul_le_mul_right _ hle
        rw [hdropnil, chunksOf_nil]
        rw [hrender]
        refine ⟨_, rfl, ?_⟩
        rw [List.flatten_cons, List.flatten_nil, List.append_nil, hbandout]
        have hmin : min s rem = rem := by omega
        apply List.take_of_length_le
        have e : pw * ph * 3 = s * j * (pw * 3) + rem * (pw * 3) := by
          rw [hph]
          ring
        rw [hmin]
        simp only [List.length_drop]
        omega
      · have hdroplen : ((x :: xs).drop (s * (pw * 3))).length = (rem - s) * (pw * 3) := by
          rw [List.length_drop, hl, Nat.sub_mul]
        have hph' : ph = s * (j + 1) + (rem - s) := by
          rw [Nat.mul_succ]
          omega
        obtain ⟨outs', houts', hflat'⟩ :=
          ih (rem - s) (by omega) ((x :: xs).drop (s * (pw * 3))) (j + 1) hph' hdroplen
        rw [hrender, houts']
        refine ⟨_, rfl, ?_⟩
        rw [List.flatten_cons, hflat', hbandout]
        have hmin : min s rem = s := by omega
        rw [hmin]
        have hAB : s * (j + 1) * (pw * 3) = s * j * (pw * 3) + s * (pw * 3) := by ring
        rw [hAB, ← List.drop_drop]
        exact List.take_append_drop _ _

/-- C4: with the buffer sized for the grid and `pixel_width > 0`, the
12-worker concurrent render produces exactly the buffer of the
single-worker synchronous render — byte-identical output. -/
theorem concurrent_eq_synchronous (pixels : List ℕ) (pw ph : ℕ) (ul lr : Cplx)
    (hw : 0 < pw) (hlen : pixels.length = pw * ph * 3) :
    concurrent pixels pw ph ul lr = synchronous pixels pw ph ul lr := by
  have hassoc : (ph / 12 + 1) * pw * 3 = (ph / 12 + 1) * (pw * 3) :=
    Nat.mul_assoc _ _ _
  obtain ⟨outs, houts, hflat⟩ :=
    spawnAll_renders pw ph (ph / 12 + 1) ul lr pixels hw (by omega) hlen ph pixels 0
      (by simp) (by rw [hlen]; ring)
  rw [synchronous, render, if_pos hlen]
  rw [concurrent]
  rw [if_neg (by simp only [hassoc]; exact Nat.mul_ne_zero (by omega) (by omega))]
  have henum : (chunksOf ((ph / 12 + 1) * pw * 3) pixels).enum
      = (chunksOf ((ph / 12 + 1) * (pw * 3)) pixels).enumFrom 0 := by
    rw [hassoc]
    rfl
  rw [henum, houts, Option.map_some']
  rw [hflat]
  simp

/-- Witness for C4 on the `100×100` grid with window `(-1,1)`–`(1,-1)`. -/
theorem concurrent_eq_synchronous_witness :
    concurrent (List.replicate 30000 0) 100 100 ⟨-1, 1⟩ ⟨1, -1⟩
      = synchronous (List.replicate 30000 0) 100 100 ⟨-1, 1⟩ ⟨1, -1⟩ :=
  concurrent_eq_synchronous (List.replicate 30000 0) 100 100 ⟨-1, 1⟩ ⟨1, -1⟩
    (by decide) (by rw [List.length_replicate])

end Mandelbrot
